import Mathlib

/-
Verification of the fractionalindex repository: a fractional-indexing key
generator (keys are strings over a 62-symbol alphabet, ordered
lexicographically by code point) together with a backend-agnostic Indexer
that turns insert-after and insert-before requests into key generation
between two neighbouring keys.

Python strings are embedded as lists of characters; lexicographic string
comparison is the function keyLt below.  Optional values (Python None)
are embedded as Option.  Exceptions are embedded as Except.
-/

namespace FractionalIndex

/-- A Python string (a Key or an item Name), embedded as a list of characters. -/
abbrev Str := List Char

/-- Lexicographic (code-point) comparison of Python strings, the order used by
the Python operator less-than on str values.  Empty is smaller than anything
nonempty; otherwise compare head characters, ties recurse on the tails. -/
def keyLt : Str → Str → Bool
  | [], [] => false
  | [], _ :: _ => true
  | _ :: _, [] => false
  | x :: xs, y :: ys => if x < y then true else if x = y then keyLt xs ys else false

/-- Modelled from the spec: the default 62-symbol alphabet of the key codec,
digits then uppercase then lowercase, which is exactly code-point order so that
alphabet order agrees with lexicographic string order (spec section 3 requires
key order to be plain lexicographic order). -/
def digits : Str := "0123456789ABCDEFGHIJKLMNOPQRSTUVWXYZabcdefghijklmnopqrstuvwxyz".toList

/-- Index of a character in the alphabet (Python digits.index). -/
def digitIndex (c : Char) : Nat := digits.indexOf c

/-- The lowercase half of the integer-part head alphabet. -/
def lowerChars : Str := "abcdefghijklmnopqrstuvwxyz".toList

/-- The uppercase half of the integer-part head alphabet. -/
def upperChars : Str := "ABCDEFGHIJKLMNOPQRSTUVWXYZ".toList

/-- The integer-part head alphabet in code-point order: uppercase heads
(negative magnitude classes) below lowercase heads (positive ones). -/
def headChars : Str := upperChars ++ lowerChars

/-- Modelled from the spec: length of the integer part of a key as a function
of its head character; lowercase heads a to z give lengths 2 to 27, uppercase
heads A to Z give lengths 27 down to 2; any other head is invalid. -/
def integerLength (h : Char) : Option Nat :=
  if lowerChars.contains h then some (lowerChars.indexOf h + 2)
  else if upperChars.contains h then some (25 - upperChars.indexOf h + 2)
  else none

/-- Modelled from the spec: the smallest representable integer part, head A
followed by twenty-six zeros; no key may consist of exactly this string. -/
def smallestInteger : Str := 'A' :: List.replicate 26 '0'

/-- Modelled from the spec: the canonical starting key a0, produced when both
bounds are absent; its head is the middle symbol of the integer-part alphabet. -/
def integerZero : Str := ['a', '0']

/-- Length of the integer part of a key (zero for an empty or head-invalid key). -/
def keyIntLen (key : Str) : Nat :=
  match key with
  | [] => 0
  | h :: _ => (integerLength h).getD 0

/-- The integer part of a key: its first keyIntLen characters. -/
def getIntPart (key : Str) : Str := key.take (keyIntLen key)

/-- The fractional part of a key: everything after the integer part. -/
def getFracPart (key : Str) : Str := key.drop (keyIntLen key)

/-- True when the string does not end in the zero digit (the fractional part of
a valid key must not, so that midpoints are canonical). -/
def noTrailZero (s : Str) : Bool := s.getLast? != some '0'

/-- Modelled from the spec: validity of an order key.  The head must be an
integer-part head, the key must be at least as long as its integer part, must
not be the smallest integer, its fractional part must not end in the zero
digit, and every character must belong to the fixed alphabet (spec section 3:
a key is a string over the fixed ordered alphabet). -/
def isValidKey (key : Str) : Bool :=
  match key with
  | [] => false
  | h :: _ =>
    (integerLength h).isSome &&
    decide (keyIntLen key ≤ key.length) &&
    (key != smallestInteger) &&
    noTrailZero (getFracPart key) &&
    key.all (fun c => digits.contains c)

/-- Python round with banker tie-breaking applied to half of a natural number:
pyRoundHalf s is round(0.5 * s), rounding exact halves to the nearest even. -/
def pyRoundHalf (s : Nat) : Nat :=
  if s % 2 = 0 then s / 2
  else if (s / 2) % 2 = 0 then s / 2 else s / 2 + 1

/-- Modelled from the spec: midpoint of a fractional string and the open upper
end (Python midpoint with second argument None): bisect toward the middle of
the remaining digit range, extending with the maximal digit head when the first
digit is already maximal, so there is no upper limit. -/
def midNone : Str → Str
  | [] => [digits.getD 31 '0']
  | c :: rest =>
    let da := digitIndex c
    if 62 - da > 1 then [digits.getD (pyRoundHalf (da + 62)) '0']
    else digits.getD da '0' :: midNone rest

/-- Modelled from the spec: midpoint of two fractional strings, the shortest
string strictly between them (first argument may be empty, meaning the low
end; an empty second argument means the high end, as in the Python code where
an empty upper string behaves exactly like None).  The Python code strips the
longest common prefix, padding the lower string with zero digits, in one step;
stripping it one character at a time is the same function and is structurally
recursive. -/
def midpoint : Str → Str → Str
  | a, [] => midNone a
  | [], y :: ys =>
    if ('0' : Char) = y then y :: midpoint [] ys
    else if digitIndex y - 0 > 1 then [digits.getD (pyRoundHalf (0 + digitIndex y)) '0']
    else
      match ys with
      | _ :: _ => [y]
      | [] => digits.getD 0 '0' :: midNone []
  | x :: xs, y :: ys =>
    if x = y then y :: midpoint xs ys
    else if digitIndex y - digitIndex x > 1 then
      [digits.getD (pyRoundHalf (digitIndex x + digitIndex y)) '0']
    else
      match ys with
      | _ :: _ => [y]
      | [] => digits.getD (digitIndex x) '0' :: midNone xs

/-- Modelled from the spec: increment the digit string of an integer part from
its rightmost digit; none means the carry ran off the left end, in which case
all digits have rolled over to the zero digit. -/
def incDigits : Str → Option Str
  | [] => none
  | d :: rest =>
    match incDigits rest with
    | some rest' => some (d :: rest')
    | none =>
      let i := digitIndex d + 1
      if i ≥ 62 then none
      else some (digits.getD i '0' :: List.replicate rest.length '0')

/-- Modelled from the spec: the successor integer part, or none when the input
is the maximal integer part (head z, all digits maximal).  A carry out of the
digits bumps the head: head Z rolls over to a0; moving up within the uppercase
heads shortens the digit string by one, moving up within the lowercase heads
lengthens it by one, as dictated by integerLength. -/
def incrementInteger (x : Str) : Option Str :=
  match x with
  | [] => none
  | h :: ds =>
    match incDigits ds with
    | some ds' => some (h :: ds')
    | none =>
      if h = 'Z' then some ['a', '0']
      else if h = 'z' then none
      else
        let h' := Char.ofNat (h.toNat + 1)
        if 'a' < h' then some (h' :: List.replicate (ds.length + 1) '0')
        else some (h' :: List.replicate (ds.length - 1) '0')

/-- Modelled from the spec: decrement the digit string of an integer part from
its rightmost digit; none means the borrow ran off the left end, in which case
all digits have rolled over to the maximal digit. -/
def decDigits : Str → Option Str
  | [] => none
  | d :: rest =>
    match decDigits rest with
    | some rest' => some (d :: rest')
    | none =>
      let i := digitIndex d
      if i = 0 then none
      else some (digits.getD (i - 1) '0' :: List.replicate rest.length 'z')

/-- Modelled from the spec: the predecessor integer part, or none when the
input is the smallest integer part.  A borrow out of the digits lowers the
head: head a rolls down to Zz; moving down within the uppercase heads
lengthens the digit string by one, moving down within the lowercase heads
shortens it by one. -/
def decrementInteger (x : Str) : Option Str :=
  match x with
  | [] => none
  | h :: ds =>
    match decDigits ds with
    | some ds' => some (h :: ds')
    | none =>
      if h = 'a' then some ['Z', 'z']
      else if h = 'A' then none
      else
        let h' := Char.ofNat (h.toNat - 1)
        if h' < 'Z' then some (h' :: List.replicate (ds.length + 1) 'z')
        else some (h' :: List.replicate (ds.length - 1) 'z')

/-- The error kinds of key generation.  The spec names the order violation
InvalidOrder (section 7); the other kinds cover an invalid key argument and
the unreachable failures of incrementing or decrementing past the ends. -/
inductive KeyError where
  | invalidOrder
  | invalidKey
  | cannotIncrement
  | cannotDecrement
deriving DecidableEq, Repr

/-- Modelled from the spec: generate_key_between of the external
fractional-indexing package, the key generator of spec sections 4.1 and 4.2.
Given optional lower and upper bounds it produces a key strictly between them;
with both bounds absent it returns the canonical starting key a0.  Per spec
section 7, a lower bound not strictly below the upper bound is reported as
InvalidOrder (checked before key validation, so that between of the strings b
and a reports the order violation as in the spec scenario of section 8). -/
def generateKeyBetween : Option Str → Option Str → Except KeyError Str
  | none, none => .ok integerZero
  | none, some bs =>
    if !isValidKey bs then .error .invalidKey
    else
      let ib := getIntPart bs
      let fb := getFracPart bs
      if ib = smallestInteger then .ok (ib ++ midpoint [] fb)
      else if keyLt ib bs then .ok ib
      else
        match decrementInteger ib with
        | none => .error .cannotDecrement
        | some r => .ok r
  | some as0, none =>
    if !isValidKey as0 then .error .invalidKey
    else
      let ia := getIntPart as0
      let fa := getFracPart as0
      match incrementInteger ia with
      | none => .ok (ia ++ midpoint fa [])
      | some i => .ok i
  | some as0, some bs =>
    if !keyLt as0 bs then .error .invalidOrder
    else if !(isValidKey as0 && isValidKey bs) then .error .invalidKey
    else
      let ia := getIntPart as0
      let fa := getFracPart as0
      let ib := getIntPart bs
      let fb := getFracPart bs
      if ia = ib then .ok (ia ++ midpoint fa fb)
      else
        match incrementInteger ia with
        | none => .error .cannotIncrement
        | some i => if keyLt i bs then .ok i else .ok (ia ++ midpoint fa [])

/-- One consistent snapshot of the four read operations of the accessor
protocol (source: the Accessor duck type used by Indexer, fractionalindex.py).
Item names are opaque; absence is an explicit Option none. -/
structure Accessor (Name : Type) where
  first : Option Name
  last : Option Name
  before : Name → Option Name
  after : Name → Option Name

/-- Indexer.insert (fractionalindex.py lines 21 to 29): resolve the optional
after and before names through the accessor by the four-case analysis of the
Python match statement, then pass both resolved names, absent or not, through
the name-to-key mapping and call key generation on the mapped bounds.  Note
that the mapping function is applied to the resolved values even when they are
absent, exactly as in the source. -/
def indexerInsert {Name : Type} (acc : Accessor Name)
    (ntk : Option Name → Option Str) (after before : Option Name) :
    Except KeyError Str :=
  match after, before with
  | none, none => generateKeyBetween (ntk acc.last) (ntk none)
  | none, some b => generateKeyBetween (ntk (acc.before b)) (ntk (some b))
  | some a, none => generateKeyBetween (ntk (some a)) (ntk (acc.after a))
  | some a, some b => generateKeyBetween (ntk (some a)) (ntk (some b))

/-- Indexer.insert_at_start: insert with before set to the first item
(possibly absent, in which case insert treats both bounds as unsupplied). -/
def indexerInsertAtStart {Name : Type} (acc : Accessor Name)
    (ntk : Option Name → Option Str) : Except KeyError Str :=
  indexerInsert acc ntk none acc.first

/-- Indexer.insert_at_end: insert with after set to the last item. -/
def indexerInsertAtEnd {Name : Type} (acc : Accessor Name)
    (ntk : Option Name → Option Str) : Except KeyError Str :=
  indexerInsert acc ntk acc.last none

/-- Leftmost insertion point of x in a sorted list: the index of the first
element not below x (sortedcontainers bisect_left on the maintained list). -/
def bisectLeft : List Str → Str → Nat
  | [], _ => 0
  | y :: ys, x => if keyLt y x then 1 + bisectLeft ys x else 0

/-- Rightmost insertion point of x in a sorted list: the index of the first
element strictly above x (sortedcontainers bisect_right). -/
def bisectRight : List Str → Str → Nat
  | [], _ => 0
  | y :: ys, x => if keyLt x y then 0 else 1 + bisectRight ys x

/-- ManagedListAccessor.after: the element at the rightmost insertion point,
or none when that point is past the end of the list. -/
def mlaAfter (l : List Str) (x : Str) : Option Str := l[bisectRight l x]?

/-- ManagedListAccessor.before: the element just before the leftmost insertion
point, or none when that point is zero. -/
def mlaBefore (l : List Str) (x : Str) : Option Str :=
  if bisectLeft l x = 0 then none else l[bisectLeft l x - 1]?

/-- ManagedListAccessor.first: the first element, or none when empty. -/
def mlaFirst (l : List Str) : Option Str := l.head?

/-- ManagedListAccessor.last: the last element, or none when empty. -/
def mlaLast (l : List Str) : Option Str := l.getLast?

/-- SortedList.add: insert a key into a sorted list, keeping it sorted
(equal keys are placed after the existing ones, as bisect_right placement). -/
def mlaAdd : List Str → Str → List Str
  | [], x => [x]
  | y :: ys, x => if keyLt x y then x :: y :: ys else y :: mlaAdd ys x

/-- The accessor snapshot presented by a ManagedListAccessor whose maintained
sorted list of keys is l. -/
def mlaAccessor (l : List Str) : Accessor Str :=
  ⟨mlaFirst l, mlaLast l, mlaBefore l, mlaAfter l⟩

/-- ManagedListIndexer.insert: run Indexer.insert over the managed sorted list
with the identity name-to-key mapping and, on success, add the generated key
to the list; returns the key together with the new list state. -/
def mliInsert (l : List Str) (after before : Option Str) :
    Except KeyError (Str × List Str) :=
  match indexerInsert (mlaAccessor l) id after before with
  | .error e => .error e
  | .ok k => .ok (k, mlaAdd l k)

/-- ManagedListIndexer.insert_at_start: the inherited insert_at_start calls the
overridden insert with before set to the first key. -/
def mliInsertAtStart (l : List Str) : Except KeyError (Str × List Str) :=
  mliInsert l none (mlaFirst l)

/-- ManagedListIndexer.insert_at_end: the inherited insert_at_end calls the
overridden insert with after set to the last key. -/
def mliInsertAtEnd (l : List Str) : Except KeyError (Str × List Str) :=
  mliInsert l (mlaLast l) none

/-- Python run-time errors that the file accessor can raise: a TypeError from
comparing None with a string inside bisect, and a KeyError from a missing
dictionary key. -/
inductive PyError where
  | typeError
  | keyError
deriving DecidableEq, Repr

/-- ManagedListAccessor.after as invoked by FileAccessor, where the looked-up
value may be Python None.  SortedList.bisect_right compares the value with the
stored strings, so a None value raises a TypeError unless the list is empty,
in which case bisect returns zero without comparing. -/
def mlaAfterPy (l : List Str) (x : Option Str) : Except PyError (Option Str) :=
  match x with
  | some k => .ok (mlaAfter l k)
  | none =>
    match l with
    | [] => .ok none
    | _ :: _ => .error .typeError

/-- ManagedListAccessor.before as invoked by FileAccessor with a possibly
absent key, raising a TypeError as bisect_left compares None with a string. -/
def mlaBeforePy (l : List Str) (x : Option Str) : Except PyError (Option Str) :=
  match x with
  | some k => .ok (mlaBefore l k)
  | none =>
    match l with
    | [] => .ok none
    | _ :: _ => .error .typeError

/-- Insert into an insertion-ordered dictionary from keys to names (Python
dict semantics: an existing key is overwritten in place, a new key appends). -/
def dictInsert (d : List (Str × Str)) (k n : Str) : List (Str × Str) :=
  if d.any (fun p => p.1 = k) then
    d.map (fun p => if p.1 = k then (k, n) else p)
  else d ++ [(k, n)]

/-- FileAccessor._key_names: the dictionary from keys to valid file names,
built by scanning the directory entries in order and keeping those names the
name-to-key function accepts. -/
def fileKeyNames (dir : List Str) (ntk : Str → Option Str) : List (Str × Str) :=
  dir.foldl (fun d nm => match ntk nm with | none => d | some k => dictInsert d k nm) []

/-- FileAccessor._keys: the keys of the key-to-name dictionary held as a
ManagedListAccessor, that is, as a sorted list. -/
def fileKeys (dir : List Str) (ntk : Str → Option Str) : List Str :=
  ((fileKeyNames dir ntk).map Prod.fst).foldl mlaAdd []

/-- Lookup in the key-to-name dictionary. -/
def dictFind (d : List (Str × Str)) (k : Str) : Option Str :=
  (d.find? (fun p => p.1 = k)).map Prod.snd

/-- FileAccessor.after: map the name to its key with the name-to-key function
of the accessor (none for an ineligible name), ask the sorted key list for the
next key, and translate back to a file name through the dictionary.  The key
handed to bisect may be None, in which case bisect raises a TypeError on a
nonempty key list, exactly as the Python source does. -/
def fileAfter (dir : List Str) (ntk : Str → Option Str) (name : Str) :
    Except PyError (Option Str) :=
  let ks := fileKeys dir ntk
  match mlaAfterPy ks (ntk name) with
  | .error e => .error e
  | .ok none => .ok none
  | .ok (some k) =>
    match dictFind (fileKeyNames dir ntk) k with
    | none => .error .keyError
    | some n => .ok (some n)

/-- FileAccessor.before, symmetric to fileAfter. -/
def fileBefore (dir : List Str) (ntk : Str → Option Str) (name : Str) :
    Except PyError (Option Str) :=
  let ks := fileKeys dir ntk
  match mlaBeforePy ks (ntk name) with
  | .error e => .error e
  | .ok none => .ok none
  | .ok (some k) =>
    match dictFind (fileKeyNames dir ntk) k with
    | none => .error .keyError
    | some n => .ok (some n)

/-- Indexer.__iter__ unrolled with explicit fuel: starting from a current
name, yield it and step to accessor.after of it, stopping at the first absent
result.  The fuel bounds the number of yields; any fuel of at least the list
length is enough on a sorted list, which the iteration theorem proves. -/
def iterFrom (l : List Str) : Option Str → Nat → List Str
  | none, _ => []
  | some _, 0 => []
  | some x, fuel + 1 => x :: iterFrom l (mlaAfter l x) fuel

/-- Iteration of an Indexer over the managed list accessor: repeatedly apply
after starting from first. -/
def mlaIter (l : List Str) (fuel : Nat) : List Str := iterFrom l (mlaFirst l) fuel

/-- Sortedness of the maintained key list: strictly increasing in key order.
This is the invariant the SortedList backing a ManagedListAccessor maintains
when keys are distinct. -/
abbrev SortedK (l : List Str) : Prop := l.Pairwise (fun a b => keyLt a b = true)

end FractionalIndex

namespace FractionalIndex

/-- Unfolding of keyLt on two nonempty strings. -/
theorem keyLt_cons_iff (x y : Char) (xs ys : Str) :
    keyLt (x :: xs) (y :: ys) = true ↔ x < y ∨ (x = y ∧ keyLt xs ys = true) := by
  by_cases h : x < y
  · simp [keyLt, h]
  · by_cases he : x = y
    · simp [keyLt, h, he]
    · simp [keyLt, h, he]

/-- Nothing is below the empty string. -/
theorem keyLt_nil_right (x : Str) : keyLt x [] = false := by
  cases x <;> rfl

/-- The empty string is below every nonempty string. -/
theorem keyLt_nil_left (y : Char) (ys : Str) : keyLt [] (y :: ys) = true := rfl

/-- keyLt is irreflexive. -/
theorem keyLt_irrefl (x : Str) : keyLt x x = false := by
  induction x with
  | nil => rfl
  | cons c t ih => simp [keyLt, ih]

/-- Comparison of two strings with equal heads reduces to the tails. -/
theorem keyLt_cons_self (c : Char) (xs ys : Str) :
    keyLt (c :: xs) (c :: ys) = keyLt xs ys := by
  simp [keyLt]

/-- A smaller head makes the whole string smaller. -/
theorem keyLt_cons_of_lt {x y : Char} (h : x < y) (xs ys : Str) :
    keyLt (x :: xs) (y :: ys) = true := by
  simp [keyLt, h]

/-- If two strings with distinct heads compare below, the heads compare below. -/
theorem lt_of_keyLt_cons {x y : Char} {xs ys : Str}
    (h : keyLt (x :: xs) (y :: ys) = true) (hne : x ≠ y) : x < y := by
  rcases (keyLt_cons_iff x y xs ys).mp h with h1 | ⟨h1, _⟩
  · exact h1
  · exact absurd h1 hne

/-- Comparison is invariant under prepending a common prefix. -/
theorem keyLt_append_left (p x y : Str) :
    keyLt (p ++ x) (p ++ y) = keyLt x y := by
  induction p with
  | nil => rfl
  | cons c t ih => simpa [keyLt_cons_self] using ih

/-- A string is strictly below itself extended by a nonempty suffix. -/
theorem keyLt_self_append (x : Str) (c : Char) (s : Str) :
    keyLt x (x ++ c :: s) = true := by
  have h := keyLt_append_left x [] (c :: s)
  simpa using h

/-- keyLt is transitive. -/
theorem keyLt_trans : ∀ x y z : Str, keyLt x y = true → keyLt y z = true →
    keyLt x z = true := by
  intro x
  induction x with
  | nil =>
    intro y z h1 h2
    cases y with
    | nil => simp [keyLt] at h1
    | cons d u =>
      cases z with
      | nil => simp [keyLt_nil_right] at h2
      | cons e v => rfl
  | cons c t ih =>
    intro y z h1 h2
    cases y with
    | nil => simp [keyLt_nil_right] at h1
    | cons d u =>
      cases z with
      | nil => simp [keyLt_nil_right] at h2
      | cons e v =>
        rcases (keyLt_cons_iff c d t u).mp h1 with hcd | ⟨hcd, ht⟩ <;>
          rcases (keyLt_cons_iff d e u v).mp h2 with hde | ⟨hde, hu⟩
        · exact keyLt_cons_of_lt (lt_trans hcd hde) t v
        · exact keyLt_cons_of_lt (hde ▸ hcd) t v
        · exact keyLt_cons_of_lt (hcd ▸ hde) t v
        · subst hcd; subst hde
          rw [keyLt_cons_self]
          exact ih u v ht hu

/-- keyLt is asymmetric. -/
theorem keyLt_asymm {x y : Str} (h : keyLt x y = true) : keyLt y x = false := by
  by_contra h2
  rw [Bool.not_eq_false] at h2
  have := keyLt_trans x y x h h2
  rw [keyLt_irrefl] at this
  exact Bool.false_ne_true this

/-- keyLt is total: two distinct strings compare one way or the other. -/
theorem keyLt_connex : ∀ x y : Str, keyLt x y = false → x ≠ y →
    keyLt y x = true := by
  intro x
  induction x with
  | nil =>
    intro y h hne
    cases y with
    | nil => exact absurd rfl hne
    | cons d u => simp [keyLt_nil_left] at h
  | cons c t ih =>
    intro y h hne
    cases y with
    | nil => rfl
    | cons d u =>
      rcases lt_trichotomy c d with hcd | hcd | hcd
      · rw [keyLt_cons_of_lt hcd] at h
        exact absurd h (by simp)
      · subst hcd
        rw [keyLt_cons_self] at h ⊢
        refine ih u h ?_
        intro he
        exact hne (by rw [he])
      · exact keyLt_cons_of_lt hcd u t

end FractionalIndex

namespace FractionalIndex

/-- If two equally long distinct strings compare below with some suffixes, they
compare below with any suffixes: the comparison is decided strictly inside
them. -/
theorem keyLt_append_stable : ∀ x y : Str, x.length = y.length → x ≠ y →
    ∀ u v u' v' : Str, keyLt (x ++ u) (y ++ v) = true →
    keyLt (x ++ u') (y ++ v') = true := by
  intro x
  induction x with
  | nil =>
    intro y hlen hne
    cases y with
    | nil => exact absurd rfl hne
    | cons d w => simp at hlen
  | cons c t ih =>
    intro y hlen hne
    cases y with
    | nil => simp at hlen
    | cons d w =>
      intro u v u' v' h
      by_cases hcd : c = d
      · subst hcd
        rw [List.cons_append, List.cons_append, keyLt_cons_self] at h ⊢
        have htw : t ≠ w := by
          intro he
          exact hne (by rw [he])
        exact ih w (by simpa using hlen) htw u v u' v' h
      · rw [List.cons_append, List.cons_append] at h
        exact keyLt_cons_of_lt (lt_of_keyLt_cons h hcd) _ _

/-- The alphabet has sixty-two symbols. -/
theorem digits_length : digits.length = 62 := by decide

/-- Looking up the index of an alphabet character returns the character. -/
theorem digits_getD_digitIndex : ∀ c ∈ digits, digits.getD (digitIndex c) '0' = c := by
  decide

/-- The index of an alphabet character is below sixty-two. -/
theorem digitIndex_lt : ∀ c ∈ digits, digitIndex c < 62 := by decide

/-- Alphabet positions are ordered exactly as the characters at them. -/
theorem digits_getD_lt_getD : ∀ i, i < 62 → ∀ j, j < 62 → i < j →
    digits.getD i '0' < digits.getD j '0' := by decide

set_option maxRecDepth 4096 in
/-- Character order implies index order on the alphabet. -/
theorem digitIndex_lt_digitIndex : ∀ c ∈ digits, ∀ d ∈ digits, c < d →
    digitIndex c < digitIndex d := by decide

/-- Every alphabet position holds an alphabet character. -/
theorem digits_getD_mem : ∀ i, i < 62 → digits.getD i '0' ∈ digits := by decide

/-- Only the zero digit has index zero. -/
theorem digitIndex_pos : ∀ c ∈ digits, c ≠ '0' → 0 < digitIndex c := by decide

/-- The index of the character at an alphabet position is that position. -/
theorem digitIndex_getD : ∀ i, i < 62 → digitIndex (digits.getD i '0') = i := by decide

/-- The rounded midpoint of two digit indices at distance at least two lies
strictly between them. -/
theorem pyRoundHalf_between {da db : Nat} (h1 : da + 1 < db) :
    da < pyRoundHalf (da + db) ∧ pyRoundHalf (da + db) < db := by
  unfold pyRoundHalf
  split
  · omega
  · split <;> omega

/-- A nonempty tail keeps the last character of a string. -/
theorem noTrailZero_tail {y : Char} {ys : Str} (h : noTrailZero (y :: ys) = true)
    (hne : ys ≠ []) : noTrailZero ys = true := by
  cases ys with
  | nil => exact absurd rfl hne
  | cons z zs =>
    simpa [noTrailZero, List.getLast?_cons_cons] using h

/-- A string whose last character is not the zero digit and whose head is the
zero digit has a nonempty tail. -/
theorem noTrailZero_zero_cons {ys : Str} (h : noTrailZero ('0' :: ys) = true) :
    ys ≠ [] := by
  intro he
  subst he
  simp [noTrailZero] at h

/-- The midpoint toward the open upper end is strictly above its input, for
any input over the alphabet. -/
theorem keyLt_midNone : ∀ a : Str, (∀ c ∈ a, c ∈ digits) →
    keyLt a (midNone a) = true := by
  intro a
  induction a with
  | nil => intro _; rfl
  | cons c rest ih =>
    intro hdig
    have hc : c ∈ digits := hdig c (by simp)
    have hci : digitIndex c < 62 := digitIndex_lt c hc
    rw [midNone]
    by_cases hgap : 62 - digitIndex c > 1
    · rw [if_pos hgap]
      have hmid := @pyRoundHalf_between (digitIndex c) 62 (by omega)
      have hclt : c < digits.getD (pyRoundHalf (digitIndex c + 62)) '0' := by
        have := digits_getD_lt_getD (digitIndex c) hci
          (pyRoundHalf (digitIndex c + 62)) hmid.2 hmid.1
        rwa [digits_getD_digitIndex c hc] at this
      exact keyLt_cons_of_lt hclt rest []
    · rw [if_neg hgap]
      rw [digits_getD_digitIndex c hc, keyLt_cons_self]
      exact ih (fun d hd => hdig d (by simp [hd]))

/-- Unfolding equation of midpoint at an empty upper string. -/
theorem midpoint_nil_right (a : Str) : midpoint a [] = midNone a := by
  cases a <;> rfl

/-- Unfolding equation of midpoint at an empty lower and nonempty upper string. -/
theorem midpoint_nil_cons (y : Char) (ys : Str) :
    midpoint [] (y :: ys) =
      if ('0' : Char) = y then y :: midpoint [] ys
      else if digitIndex y - 0 > 1 then
        [digits.getD (pyRoundHalf (0 + digitIndex y)) '0']
      else
        match ys with
        | _ :: _ => [y]
        | [] => digits.getD 0 '0' :: midNone [] := rfl

/-- Unfolding equation of midpoint at two nonempty strings. -/
theorem midpoint_cons_cons (x : Char) (xs : Str) (y : Char) (ys : Str) :
    midpoint (x :: xs) (y :: ys) =
      if x = y then y :: midpoint xs ys
      else if digitIndex y - digitIndex x > 1 then
        [digits.getD (pyRoundHalf (digitIndex x + digitIndex y)) '0']
      else
        match ys with
        | _ :: _ => [y]
        | [] => digits.getD (digitIndex x) '0' :: midNone xs := rfl

/-- Core correctness of the midpoint of two fractional strings: if the lower
string is strictly below the upper one, both over the alphabet, and the upper
one does not end in the zero digit, then the midpoint lies strictly between
them.  An empty upper string is excluded since nothing is below it. -/
theorem keyLt_midpoint : ∀ b a : Str, (∀ c ∈ a, c ∈ digits) →
    (∀ c ∈ b, c ∈ digits) → noTrailZero b = true → keyLt a b = true →
    keyLt a (midpoint a b) = true ∧ keyLt (midpoint a b) b = true := by
  intro b
  induction b with
  | nil =>
    intro a _ _ _ hab
    rw [keyLt_nil_right] at hab
    exact absurd hab (by simp)
  | cons y ys ih =>
    intro a hadig hbdig hbz hab
    have hy : y ∈ digits := hbdig y (by simp)
    have hyi : digitIndex y < 62 := digitIndex_lt y hy
    have hysdig : ∀ c ∈ ys, c ∈ digits := fun d hd => hbdig d (by simp [hd])
    cases a with
    | nil =>
      rw [midpoint_nil_cons]
      by_cases h0y : ('0' : Char) = y
      · rw [if_pos h0y]
        have hy0 : y = '0' := h0y.symm
        subst hy0
        have hysne : ys ≠ [] := noTrailZero_zero_cons hbz
        have hysz : noTrailZero ys = true := noTrailZero_tail hbz hysne
        have h0ys : keyLt [] ys = true := by
          cases ys with
          | nil => exact absurd rfl hysne
          | cons z zs => rfl
        have hih := ih [] (by simp) hysdig hysz h0ys
        exact ⟨rfl, by rw [keyLt_cons_self]; exact hih.2⟩
      · rw [if_neg h0y]
        have hdb : 0 < digitIndex y :=
          digitIndex_pos y hy (fun he => h0y (by rw [he]))
        by_cases hgap : digitIndex y - 0 > 1
        · rw [if_pos hgap]
          have hmid := @pyRoundHalf_between 0 (digitIndex y) (by omega)
          have hmlt : digits.getD (pyRoundHalf (0 + digitIndex y)) '0' < y := by
            have := digits_getD_lt_getD (pyRoundHalf (0 + digitIndex y))
              (by omega) (digitIndex y) hyi hmid.2
            rwa [digits_getD_digitIndex y hy] at this
          exact ⟨rfl, keyLt_cons_of_lt hmlt [] ys⟩
        · rw [if_neg hgap]
          cases ys with
          | cons z zs => exact ⟨rfl, by rw [keyLt_cons_self]; rfl⟩
          | nil =>
            refine ⟨rfl, ?_⟩
            have hmlt : digits.getD 0 '0' < y := by
              have := digits_getD_lt_getD 0 (by omega) (digitIndex y) hyi hdb
              rwa [digits_getD_digitIndex y hy] at this
            exact keyLt_cons_of_lt hmlt _ []
    | cons x xs =>
      have hx : x ∈ digits := hadig x (by simp)
      have hxi : digitIndex x < 62 := digitIndex_lt x hx
      have hxsdig : ∀ c ∈ xs, c ∈ digits := fun d hd => hadig d (by simp [hd])
      rw [midpoint_cons_cons]
      by_cases hxy : x = y
      · rw [if_pos hxy]
        subst hxy
        rw [keyLt_cons_self] at hab
        have hysne : ys ≠ [] := by
          intro he
          subst he
          rw [keyLt_nil_right] at hab
          exact absurd hab (by simp)
        have hysz : noTrailZero ys = true := noTrailZero_tail hbz hysne
        have hih := ih xs hxsdig hysdig hysz hab
        exact ⟨by rw [keyLt_cons_self]; exact hih.1,
          by rw [keyLt_cons_self]; exact hih.2⟩
      · rw [if_neg hxy]
        have hxlty : x < y := lt_of_keyLt_cons hab hxy
        have hdalt : digitIndex x < digitIndex y :=
          digitIndex_lt_digitIndex x hx y hy hxlty
        by_cases hgap : digitIndex y - digitIndex x > 1
        · rw [if_pos hgap]
          have hmid := @pyRoundHalf_between (digitIndex x) (digitIndex y)
            (by omega)
          have hxm : x < digits.getD (pyRoundHalf (digitIndex x + digitIndex y)) '0' := by
            have := digits_getD_lt_getD (digitIndex x) hxi
              (pyRoundHalf (digitIndex x + digitIndex y)) (by omega) hmid.1
            rwa [digits_getD_digitIndex x hx] at this
          have hmy : digits.getD (pyRoundHalf (digitIndex x + digitIndex y)) '0' < y := by
            have := digits_getD_lt_getD (pyRoundHalf (digitIndex x + digitIndex y))
              (by omega) (digitIndex y) hyi hmid.2
            rwa [digits_getD_digitIndex y hy] at this
          exact ⟨keyLt_cons_of_lt hxm xs [], keyLt_cons_of_lt hmy [] ys⟩
        · rw [if_neg hgap]
          cases ys with
          | cons z zs =>
            exact ⟨keyLt_cons_of_lt hxlty xs [],
              by rw [keyLt_cons_self]; rfl⟩
          | nil =>
            rw [digits_getD_digitIndex x hx]
            refine ⟨?_, ?_⟩
            · rw [keyLt_cons_self]
              exact keyLt_midNone xs hxsdig
            · exact keyLt_cons_of_lt hxlty _ []


end FractionalIndex

namespace FractionalIndex

/-- Moving to the next code point goes strictly up on every head character
that can be incremented. -/
theorem head_lt_succ : ∀ h ∈ headChars, ¬h = 'Z' → ¬h = 'z' →
    h < Char.ofNat (h.toNat + 1) := by decide

/-- Moving to the previous code point goes strictly down on every head
character that can be decremented. -/
theorem pred_lt_head : ∀ h ∈ headChars, ¬h = 'a' → ¬h = 'A' →
    Char.ofNat (h.toNat - 1) < h := by decide

/-- A character with an integer-part length is a head character. -/
theorem headChars_of_integerLength {h : Char}
    (hs : (integerLength h).isSome = true) : h ∈ headChars := by
  unfold integerLength at hs
  by_cases hl : lowerChars.contains h
  · simp [List.contains] at hl
    simp [headChars, hl]
  · rw [if_neg hl] at hs
    by_cases hu : upperChars.contains h
    · simp [List.contains] at hu
      simp [headChars, hu]
    · rw [if_neg hu] at hs
      simp at hs

/-- Integer parts are at least two characters long. -/
theorem integerLength_ge_two {h : Char} {n : Nat} (he : integerLength h = some n) :
    2 ≤ n := by
  unfold integerLength at he
  split at he
  · cases he
    omega
  · split at he
    · cases he
      omega
    · cases he

/-- Unfolding equation of incDigits on a nonempty digit string. -/
theorem incDigits_cons (d : Char) (rest : Str) :
    incDigits (d :: rest) =
      match incDigits rest with
      | some rest' => some (d :: rest')
      | none =>
        if digitIndex d + 1 ≥ 62 then none
        else some (digits.getD (digitIndex d + 1) '0' ::
          List.replicate rest.length '0') := rfl

/-- A successful digit-string increment with any suffix attached to the input
is strictly above the input. -/
theorem keyLt_incDigits : ∀ ds ds' : Str, (∀ c ∈ ds, c ∈ digits) →
    incDigits ds = some ds' → ∀ t, keyLt (ds ++ t) ds' = true := by
  intro ds
  induction ds with
  | nil => intro ds' _ hsome; cases hsome
  | cons d rest ih =>
    intro ds' hdig hsome t
    have hd : d ∈ digits := hdig d (by simp)
    have hdi : digitIndex d < 62 := digitIndex_lt d hd
    rw [incDigits_cons] at hsome
    cases hrec : incDigits rest with
    | some r' =>
      rw [hrec] at hsome
      cases hsome
      rw [List.cons_append, keyLt_cons_self]
      exact ih r' (fun c hc => hdig c (by simp [hc])) hrec t
    | none =>
      rw [hrec] at hsome
      by_cases hcap : digitIndex d + 1 ≥ 62
      · rw [if_pos hcap] at hsome
        cases hsome
      · rw [if_neg hcap] at hsome
        cases hsome
        have hlt : d < digits.getD (digitIndex d + 1) '0' := by
          have := digits_getD_lt_getD (digitIndex d) hdi (digitIndex d + 1)
            (by omega) (by omega)
          rwa [digits_getD_digitIndex d hd] at this
        exact keyLt_cons_of_lt hlt _ _

/-- Unfolding equation of incrementInteger on a nonempty integer part. -/
theorem incrementInteger_cons (h : Char) (ds : Str) :
    incrementInteger (h :: ds) =
      match incDigits ds with
      | some ds' => some (h :: ds')
      | none =>
        if h = 'Z' then some ['a', '0']
        else if h = 'z' then none
        else
          if 'a' < Char.ofNat (h.toNat + 1) then
            some (Char.ofNat (h.toNat + 1) :: List.replicate (ds.length + 1) '0')
          else some (Char.ofNat (h.toNat + 1) :: List.replicate (ds.length - 1) '0') := rfl

/-- A successful integer-part increment is strictly above the integer part
with any suffix attached, because the increment changes a character strictly
inside the integer part (or grows its head). -/
theorem keyLt_incrementInteger : ∀ (h : Char) (ds i : Str), h ∈ headChars →
    (∀ c ∈ ds, c ∈ digits) → incrementInteger (h :: ds) = some i →
    ∀ t, keyLt ((h :: ds) ++ t) i = true := by
  intro h ds i hhead hdig hsome t
  rw [incrementInteger_cons] at hsome
  cases hrec : incDigits ds with
  | some ds' =>
    rw [hrec] at hsome
    cases hsome
    rw [List.cons_append, keyLt_cons_self]
    exact keyLt_incDigits ds ds' hdig hrec t
  | none =>
    rw [hrec] at hsome
    by_cases hZ : h = 'Z'
    · rw [if_pos hZ] at hsome
      cases hsome
      subst hZ
      exact keyLt_cons_of_lt (by decide) _ _
    · rw [if_neg hZ] at hsome
      by_cases hz : h = 'z'
      · rw [if_pos hz] at hsome
        cases hsome
      · rw [if_neg hz] at hsome
        have hlt : h < Char.ofNat (h.toNat + 1) := head_lt_succ h hhead hZ hz
        by_cases hgrow : 'a' < Char.ofNat (h.toNat + 1)
        · rw [if_pos hgrow] at hsome
          cases hsome
          exact keyLt_cons_of_lt hlt _ _
        · rw [if_neg hgrow] at hsome
          cases hsome
          exact keyLt_cons_of_lt hlt _ _

/-- Unfolding equation of decDigits on a nonempty digit string. -/
theorem decDigits_cons (d : Char) (rest : Str) :
    decDigits (d :: rest) =
      match decDigits rest with
      | some rest' => some (d :: rest')
      | none =>
        if digitIndex d = 0 then none
        else some (digits.getD (digitIndex d - 1) '0' ::
          List.replicate rest.length 'z') := rfl

/-- A successful digit-string decrement is strictly below the input. -/
theorem keyLt_decDigits : ∀ ds ds' : Str, (∀ c ∈ ds, c ∈ digits) →
    decDigits ds = some ds' → keyLt ds' ds = true := by
  intro ds
  induction ds with
  | nil => intro ds' _ hsome; cases hsome
  | cons d rest ih =>
    intro ds' hdig hsome
    have hd : d ∈ digits := hdig d (by simp)
    have hdi : digitIndex d < 62 := digitIndex_lt d hd
    rw [decDigits_cons] at hsome
    cases hrec : decDigits rest with
    | some r' =>
      rw [hrec] at hsome
      cases hsome
      rw [keyLt_cons_self]
      exact ih r' (fun c hc => hdig c (by simp [hc])) hrec
    | none =>
      rw [hrec] at hsome
      by_cases hzero : digitIndex d = 0
      · rw [if_pos hzero] at hsome
        cases hsome
      · rw [if_neg hzero] at hsome
        cases hsome
        have hlt : digits.getD (digitIndex d - 1) '0' < d := by
          have := digits_getD_lt_getD (digitIndex d - 1) (by omega)
            (digitIndex d) hdi (by omega)
          rwa [digits_getD_digitIndex d hd] at this
        exact keyLt_cons_of_lt hlt _ _

/-- Unfolding equation of decrementInteger on a nonempty integer part. -/
theorem decrementInteger_cons (h : Char) (ds : Str) :
    decrementInteger (h :: ds) =
      match decDigits ds with
      | some ds' => some (h :: ds')
      | none =>
        if h = 'a' then some ['Z', 'z']
        else if h = 'A' then none
        else
          if Char.ofNat (h.toNat - 1) < 'Z' then
            some (Char.ofNat (h.toNat - 1) :: List.replicate (ds.length + 1) 'z')
          else some (Char.ofNat (h.toNat - 1) :: List.replicate (ds.length - 1) 'z') := rfl

/-- A successful integer-part decrement is strictly below the integer part. -/
theorem keyLt_decrementInteger : ∀ (h : Char) (ds d : Str), h ∈ headChars →
    (∀ c ∈ ds, c ∈ digits) → decrementInteger (h :: ds) = some d →
    keyLt d (h :: ds) = true := by
  intro h ds d hhead hdig hsome
  rw [decrementInteger_cons] at hsome
  cases hrec : decDigits ds with
  | some ds' =>
    rw [hrec] at hsome
    cases hsome
    rw [keyLt_cons_self]
    exact keyLt_decDigits ds ds' hdig hrec
  | none =>
    rw [hrec] at hsome
    by_cases ha : h = 'a'
    · rw [if_pos ha] at hsome
      cases hsome
      subst ha
      exact keyLt_cons_of_lt (by decide) _ _
    · rw [if_neg ha] at hsome
      by_cases hA : h = 'A'
      · rw [if_pos hA] at hsome
        cases hsome
      · rw [if_neg hA] at hsome
        have hlt : Char.ofNat (h.toNat - 1) < h := pred_lt_head h hhead ha hA
        by_cases hgrow : Char.ofNat (h.toNat - 1) < 'Z'
        · rw [if_pos hgrow] at hsome
          cases hsome
          exact keyLt_cons_of_lt hlt _ _
        · rw [if_neg hgrow] at hsome
          cases hsome
          exact keyLt_cons_of_lt hlt _ _

end FractionalIndex

namespace FractionalIndex

/-- Unpacking of key validity into its component facts. -/
theorem isValidKey_elim {key : Str} (hv : isValidKey key = true) :
    ∃ h0 rest, key = h0 :: rest ∧ (integerLength h0).isSome = true ∧
    keyIntLen key ≤ key.length ∧ key ≠ smallestInteger ∧
    noTrailZero (getFracPart key) = true ∧ ∀ c ∈ key, c ∈ digits := by
  cases key with
  | nil => simp [isValidKey] at hv
  | cons h0 rest =>
    refine ⟨h0, rest, rfl, ?_⟩
    simp only [isValidKey, Bool.and_eq_true, bne_iff_ne, ne_eq,
      decide_eq_true_eq, List.all_eq_true] at hv
    obtain ⟨⟨⟨⟨h1, h2⟩, h3⟩, h4⟩, h5⟩ := hv
    refine ⟨h1, h2, h3, h4, ?_⟩
    intro c hc
    have := h5 c hc
    simpa [List.contains] using this

/-- A key splits into its integer and fractional parts. -/
theorem intPart_append_fracPart (key : Str) :
    getIntPart key ++ getFracPart key = key := List.take_append_drop _ _

/-- All characters of the fractional part are alphabet characters when all
characters of the key are. -/
theorem fracPart_digits {key : Str} (hdig : ∀ c ∈ key, c ∈ digits) :
    ∀ c ∈ getFracPart key, c ∈ digits :=
  fun c hc => hdig c (List.drop_subset _ _ hc)

/-- Shape of the integer part of a nonempty key: the head followed by the
right number of further characters. -/
theorem getIntPart_cons {h0 : Char} {rest : Str} {n : Nat}
    (hn : integerLength h0 = some n) :
    getIntPart (h0 :: rest) = h0 :: rest.take (n - 1) := by
  obtain ⟨m, rfl⟩ : ∃ m, n = m + 1 := by
    have := integerLength_ge_two hn
    exact ⟨n - 1, by omega⟩
  simp [getIntPart, keyIntLen, hn, List.take_succ_cons]

/-- The integer part has exactly the length prescribed by the head when the
key is long enough. -/
theorem getIntPart_length {key : Str} (hle : keyIntLen key ≤ key.length) :
    (getIntPart key).length = keyIntLen key := by
  simp [getIntPart, List.length_take]
  omega

/-- The lower-bound side for the midpoint fallback: a valid key is strictly
below its integer part extended by the open-ended midpoint of its fractional
part. -/
theorem keyLt_self_midNone {key : Str} (hdig : ∀ c ∈ key, c ∈ digits) :
    keyLt key (getIntPart key ++ midNone (getFracPart key)) = true := by
  calc keyLt key (getIntPart key ++ midNone (getFracPart key))
      = keyLt (getIntPart key ++ getFracPart key)
          (getIntPart key ++ midNone (getFracPart key)) := by
        rw [intPart_append_fracPart]
    _ = keyLt (getFracPart key) (midNone (getFracPart key)) :=
        keyLt_append_left _ _ _
    _ = true := keyLt_midNone _ (fracPart_digits hdig)

/-- The lower-bound side for the increment branch: a valid key is strictly
below any successful increment of its integer part. -/
theorem keyLt_self_incIntPart {h0 : Char} {rest i : Str} {n : Nat}
    (hn : integerLength h0 = some n)
    (hdig : ∀ c ∈ h0 :: rest, c ∈ digits)
    (hinc : incrementInteger (getIntPart (h0 :: rest)) = some i) :
    keyLt (h0 :: rest) i = true := by
  rw [getIntPart_cons hn] at hinc
  have hds : ∀ c ∈ rest.take (n - 1), c ∈ digits :=
    fun c hc => hdig c (List.mem_cons_of_mem _ (List.take_subset _ _ hc))
  have hhead : h0 ∈ headChars :=
    headChars_of_integerLength (by rw [hn]; rfl)
  have h2 := keyLt_incrementInteger h0 (rest.take (n - 1)) i hhead hds hinc
    (getFracPart (h0 :: rest))
  have hsplit : (h0 :: rest.take (n - 1)) ++ getFracPart (h0 :: rest) =
      h0 :: rest := by
    rw [← getIntPart_cons hn]
    exact intPart_append_fracPart _
  rwa [hsplit] at h2

/-- Soundness of key generation: whenever generateKeyBetween succeeds, the
produced key is strictly above a present lower bound and strictly below a
present upper bound, in lexicographic order. -/
theorem generate_ok_bounds : ∀ (oa ob : Option Str) (k : Str),
    generateKeyBetween oa ob = .ok k →
    (∀ a0, oa = some a0 → keyLt a0 k = true) ∧
    (∀ b0, ob = some b0 → keyLt k b0 = true) := by
  intro oa ob k hgen
  cases oa with
  | none =>
    cases ob with
    | none =>
      exact ⟨(fun a0 h => nomatch h), (fun b0 h => nomatch h)⟩
    | some bs =>
      refine ⟨(fun a0 h => nomatch h), (fun b0 hb0 => ?_)⟩
      cases hb0
      by_cases hvb : isValidKey bs
      · simp only [generateKeyBetween, hvb, Bool.not_true, Bool.false_eq_true,
          if_false] at hgen
        obtain ⟨h0, rest, hbseq, hintsome, hlen, hnsmall, htrail, hdigall⟩ :=
          isValidKey_elim hvb
        by_cases hsm : getIntPart bs = smallestInteger
        · rw [if_pos hsm] at hgen
          injection hgen with hk
          subst hk
          have hfb : getFracPart bs ≠ [] := by
            intro hfe
            have hsp := intPart_append_fracPart bs
            rw [hfe, List.append_nil] at hsp
            exact hnsmall (by rw [← hsp, hsm])
          have hmid := keyLt_midpoint (getFracPart bs) [] (by simp)
            (fracPart_digits hdigall) htrail
            (by cases hfe : getFracPart bs with
                | nil => exact absurd hfe hfb
                | cons z zs => rfl)
          calc keyLt (getIntPart bs ++ midpoint [] (getFracPart bs)) bs
              = keyLt (getIntPart bs ++ midpoint [] (getFracPart bs))
                  (getIntPart bs ++ getFracPart bs) := by
                rw [intPart_append_fracPart]
            _ = keyLt (midpoint [] (getFracPart bs)) (getFracPart bs) :=
                keyLt_append_left _ _ _
            _ = true := hmid.2
        · rw [if_neg hsm] at hgen
          by_cases hlt : keyLt (getIntPart bs) bs = true
          · rw [if_pos hlt] at hgen
            injection hgen with hk
            subst hk
            exact hlt
          · rw [if_neg hlt] at hgen
            have hfb : getFracPart bs = [] := by
              cases hfe : getFracPart bs with
              | nil => rfl
              | cons z zs =>
                exfalso
                apply hlt
                have hsp := intPart_append_fracPart bs
                rw [hfe] at hsp
                calc keyLt (getIntPart bs) bs
                    = keyLt (getIntPart bs) (getIntPart bs ++ z :: zs) := by
                      rw [hsp]
                  _ = true := keyLt_self_append _ z zs
            have hibbs : getIntPart bs = bs := by
              have hsp := intPart_append_fracPart bs
              rwa [hfb, List.append_nil] at hsp
            cases hdec : decrementInteger (getIntPart bs) with
            | none => rw [hdec] at hgen; cases hgen
            | some r =>
              rw [hdec] at hgen
              injection hgen with hk
              subst hk
              rw [hibbs, hbseq] at hdec
              have hresult := keyLt_decrementInteger h0 rest r
                (headChars_of_integerLength hintsome)
                (fun c hc => hdigall c (by rw [hbseq]; simp [hc])) hdec
              rw [hbseq]
              exact hresult
      · exfalso
        simp only [generateKeyBetween, hvb] at hgen
        simp at hgen
  | some as0 =>
    cases ob with
    | none =>
      refine ⟨(fun a0 ha0 => ?_), (fun b0 h => nomatch h)⟩
      cases ha0
      by_cases hva : isValidKey as0
      · simp only [generateKeyBetween, hva, Bool.not_true, Bool.false_eq_true,
          if_false] at hgen
        obtain ⟨h0, rest, haseq, hintsome, hlen, hnsmall, htrail, hdigall⟩ :=
          isValidKey_elim hva
        obtain ⟨n, hn⟩ := Option.isSome_iff_exists.mp hintsome
        cases hinc : incrementInteger (getIntPart as0) with
        | some i =>
          rw [hinc] at hgen
          injection hgen with hk
          subst hk
          rw [haseq] at hinc ⊢
          exact keyLt_self_incIntPart hn (by rw [← haseq]; exact hdigall) hinc
        | none =>
          rw [hinc] at hgen
          injection hgen with hk
          subst hk
          rw [midpoint_nil_right]
          exact keyLt_self_midNone hdigall
      · exfalso
        simp only [generateKeyBetween, hva] at hgen
        simp at hgen
    | some bs =>
      by_cases horder : keyLt as0 bs = true
      · simp only [generateKeyBetween, horder, Bool.not_true, Bool.false_eq_true,
          if_false] at hgen
        by_cases hva : isValidKey as0
        · by_cases hvb : isValidKey bs
          · simp only [hva, hvb, Bool.and_self, Bool.not_true, Bool.false_eq_true,
              if_false] at hgen
            obtain ⟨ha0, ra, haseq, hintsome_a, hlen_a, hnsmall_a, htrail_a,
              hdig_a⟩ := isValidKey_elim hva
            obtain ⟨hb0, rb, hbseq, hintsome_b, hlen_b, hnsmall_b, htrail_b,
              hdig_b⟩ := isValidKey_elim hvb
            obtain ⟨na, hna⟩ := Option.isSome_iff_exists.mp hintsome_a
            obtain ⟨nb, hnb⟩ := Option.isSome_iff_exists.mp hintsome_b
            by_cases hii : getIntPart as0 = getIntPart bs
            · rw [if_pos hii] at hgen
              injection hgen with hk
              subst hk
              have hfafb : keyLt (getFracPart as0) (getFracPart bs) = true := by
                have h1 : keyLt (getIntPart as0 ++ getFracPart as0)
                    (getIntPart as0 ++ getFracPart bs) = true := by
                  rw [intPart_append_fracPart, hii, intPart_append_fracPart]
                  exact horder
                rwa [keyLt_append_left] at h1
              have hmid := keyLt_midpoint (getFracPart bs) (getFracPart as0)
                (fracPart_digits hdig_a) (fracPart_digits hdig_b) htrail_b hfafb
              constructor
              · intro a0 ha'
                cases ha'
                calc keyLt as0 (getIntPart as0 ++
                      midpoint (getFracPart as0) (getFracPart bs))
                    = keyLt (getIntPart as0 ++ getFracPart as0)
                        (getIntPart as0 ++
                          midpoint (getFracPart as0) (getFracPart bs)) := by
                      rw [intPart_append_fracPart]
                  _ = keyLt (getFracPart as0)
                        (midpoint (getFracPart as0) (getFracPart bs)) :=
                      keyLt_append_left _ _ _
                  _ = true := hmid.1
              · intro b0 hb'
                cases hb'
                calc keyLt (getIntPart as0 ++
                      midpoint (getFracPart as0) (getFracPart bs)) bs
                    = keyLt (getIntPart as0 ++
                        midpoint (getFracPart as0) (getFracPart bs))
                        (getIntPart bs ++ getFracPart bs) := by
                      rw [intPart_append_fracPart]
                  _ = keyLt (getIntPart as0 ++
                        midpoint (getFracPart as0) (getFracPart bs))
                        (getIntPart as0 ++ getFracPart bs) := by rw [hii]
                  _ = keyLt (midpoint (getFracPart as0) (getFracPart bs))
                        (getFracPart bs) := keyLt_append_left _ _ _
                  _ = true := hmid.2
            · rw [if_neg hii] at hgen
              cases hinc : incrementInteger (getIntPart as0) with
              | none => rw [hinc] at hgen; cases hgen
              | some i =>
                rw [hinc] at hgen
                have hgen2 : (if keyLt i bs = true then
                    (Except.ok i : Except KeyError Str)
                    else Except.ok (getIntPart as0 ++
                      midpoint (getFracPart as0) [])) = Except.ok k := hgen
                have hlow_inc : keyLt as0 i = true := by
                  rw [haseq] at hinc ⊢
                  exact keyLt_self_incIntPart hna
                    (by rw [← haseq]; exact hdig_a) hinc
                by_cases hib : keyLt i bs = true
                · rw [if_pos hib] at hgen2
                  injection hgen2 with hk
                  subst hk
                  exact ⟨(fun a0 ha' => by cases ha'; exact hlow_inc),
                    (fun b0 hb' => by cases hb'; exact hib)⟩
                · rw [if_neg hib] at hgen2
                  injection hgen2 with hk
                  subst hk
                  rw [midpoint_nil_right]
                  refine ⟨fun a0 ha' => ?_, fun b0 hb' => ?_⟩
                  · cases ha'
                    exact keyLt_self_midNone hdig_a
                  · cases hb'
                    by_cases hheads : ha0 = hb0
                    · have hnab : na = nb := by
                        rw [hheads] at hna
                        rw [hna] at hnb
                        injection hnb
                      have hlen_eq :
                          (getIntPart as0).length = (getIntPart bs).length := by
                        rw [getIntPart_length hlen_a, getIntPart_length hlen_b,
                          haseq, hbseq]
                        simp [keyIntLen, hna, hnb, hnab]
                      have hstable := keyLt_append_stable (getIntPart as0)
                        (getIntPart bs) hlen_eq hii (getFracPart as0)
                        (getFracPart bs) (midNone (getFracPart as0))
                        (getFracPart bs)
                        (by rw [intPart_append_fracPart, intPart_append_fracPart]
                            exact horder)
                      calc keyLt (getIntPart as0 ++ midNone (getFracPart as0)) bs
                          = keyLt (getIntPart as0 ++ midNone (getFracPart as0))
                              (getIntPart bs ++ getFracPart bs) := by
                            rw [intPart_append_fracPart]
                        _ = true := hstable
                    · have hablt : ha0 < hb0 := by
                        rw [haseq, hbseq] at horder
                        exact lt_of_keyLt_cons horder hheads
                      rw [haseq, getIntPart_cons hna, hbseq, List.cons_append]
                      exact keyLt_cons_of_lt hablt _ _
          · exfalso
            simp only [hvb, Bool.and_false] at hgen
            simp at hgen
        · exfalso
          simp only [hva, Bool.false_and] at hgen
          simp at hgen
      · exfalso
        have hfalse : keyLt as0 bs = false := by
          cases hkb : keyLt as0 bs with
          | false => rfl
          | true => exact absurd hkb horder
        simp only [generateKeyBetween, hfalse, Bool.not_false, if_true] at hgen
        cases hgen


end FractionalIndex

namespace FractionalIndex

/-- The leftmost insertion point never exceeds the list length. -/
theorem bisectLeft_le_length : ∀ (l : List Str) (x : Str),
    bisectLeft l x ≤ l.length := by
  intro l x
  induction l with
  | nil => exact Nat.le_refl 0
  | cons y ys ih =>
    rw [bisectLeft]
    split
    · simp only [List.length_cons]
      omega
    · simp

/-- Recursion equation of the after operation of the managed list accessor. -/
theorem mlaAfter_cons (y : Str) (ys : List Str) (x : Str) :
    mlaAfter (y :: ys) x =
      if keyLt x y = true then some y else mlaAfter ys x := by
  by_cases h : keyLt x y = true
  · simp [mlaAfter, bisectRight, h]
  · simp [mlaAfter, bisectRight, h, Nat.add_comm]

/-- Recursion equation of the before operation of the managed list accessor. -/
theorem mlaBefore_cons (y : Str) (ys : List Str) (x : Str) :
    mlaBefore (y :: ys) x =
      if keyLt y x = true then some ((mlaBefore ys x).getD y) else none := by
  by_cases h : keyLt y x = true
  · rw [if_pos h]
    cases hm : bisectLeft ys x with
    | zero =>
      simp [mlaBefore, bisectLeft, h, hm]
    | succ j =>
      have hj : j < ys.length := by
        have := bisectLeft_le_length ys x
        omega
      simp [mlaBefore, bisectLeft, h, hm, Nat.add_comm, List.getElem?_eq_getElem hj]
  · simp [mlaBefore, bisectLeft, h]

/-- Characterization of the after operation on a sorted list: it returns the
least stored key strictly above the probe, and is absent exactly when no
stored key is strictly above the probe. -/
theorem mlaAfter_spec : ∀ (l : List Str) (x : Str), SortedK l →
    (mlaAfter l x = none ↔ ∀ z ∈ l, keyLt x z = false) ∧
    (∀ y, mlaAfter l x = some y → y ∈ l ∧ keyLt x y = true ∧
      ∀ z ∈ l, keyLt x z = true → keyLt z y = false) := by
  intro l
  induction l with
  | nil =>
    intro x _
    exact ⟨by simp [mlaAfter, bisectRight], by intro y h; cases h⟩
  | cons y ys ih =>
    intro x hs
    obtain ⟨hy_lt, hs_tail⟩ := List.pairwise_cons.mp hs
    have ihx := ih x hs_tail
    rw [mlaAfter_cons]
    by_cases h : keyLt x y = true
    · rw [if_pos h]
      constructor
      · constructor
        · intro hcontra; cases hcontra
        · intro hall
          have := hall y (by simp)
          rw [h] at this
          cases this
      · intro y' hy'
        injection hy' with hy'
        subst hy'
        refine ⟨by simp, h, ?_⟩
        intro z hz _
        rcases List.mem_cons.mp hz with rfl | hz2
        · exact keyLt_irrefl _
        · exact keyLt_asymm (hy_lt z hz2)
    · rw [if_neg h]
      have hxy : keyLt x y = false := by
        cases hv : keyLt x y with
        | false => rfl
        | true => exact absurd hv h
      constructor
      · constructor
        · intro hnone z hz
          rcases List.mem_cons.mp hz with rfl | hz2
          · exact hxy
          · exact (ihx.1.mp hnone) z hz2
        · intro hall
          exact ihx.1.mpr (fun z hz => hall z (by simp [hz]))
      · intro y' hy'
        obtain ⟨hmem, hlt, hmin⟩ := ihx.2 y' hy'
        refine ⟨by simp [hmem], hlt, ?_⟩
        intro z hz hxz
        rcases List.mem_cons.mp hz with rfl | hz2
        · rw [hxz] at hxy
          cases hxy
        · exact hmin z hz2 hxz

/-- Characterization of the before operation on a sorted list: it returns the
greatest stored key strictly below the probe, and is absent exactly when no
stored key is strictly below the probe. -/
theorem mlaBefore_spec : ∀ (l : List Str) (x : Str), SortedK l →
    (mlaBefore l x = none ↔ ∀ z ∈ l, keyLt z x = false) ∧
    (∀ y, mlaBefore l x = some y → y ∈ l ∧ keyLt y x = true ∧
      ∀ z ∈ l, keyLt z x = true → keyLt y z = false) := by
  intro l
  induction l with
  | nil =>
    intro x _
    exact ⟨by simp [mlaBefore, bisectLeft], by intro y h; cases h⟩
  | cons y ys ih =>
    intro x hs
    obtain ⟨hy_lt, hs_tail⟩ := List.pairwise_cons.mp hs
    have ihx := ih x hs_tail
    rw [mlaBefore_cons]
    by_cases h : keyLt y x = true
    · rw [if_pos h]
      constructor
      · constructor
        · intro hcontra; cases hcontra
        · intro hall
          have := hall y (by simp)
          rw [h] at this
          cases this
      · intro y' hy'
        injection hy' with hy'
        cases hm : mlaBefore ys x with
        | none =>
          rw [hm] at hy'
          simp at hy'
          subst hy'
          refine ⟨by simp, h, ?_⟩
          intro z hz hzx
          rcases List.mem_cons.mp hz with rfl | hz2
          · exact keyLt_irrefl z
          · have := (ihx.1.mp hm) z hz2
            rw [hzx] at this
            cases this
        | some w =>
          rw [hm] at hy'
          simp at hy'
          subst hy'
          obtain ⟨hmem, hlt, hmax⟩ := ihx.2 w hm
          refine ⟨by simp [hmem], hlt, ?_⟩
          intro z hz hzx
          rcases List.mem_cons.mp hz with rfl | hz2
          · exact keyLt_asymm (hy_lt w hmem)
          · exact hmax z hz2 hzx
    · rw [if_neg h]
      have hyx : keyLt y x = false := by
        cases hv : keyLt y x with
        | false => rfl
        | true => exact absurd hv h
      constructor
      · constructor
        · intro _ z hz
          rcases List.mem_cons.mp hz with rfl | hz2
          · exact hyx
          · cases hv : keyLt z x with
            | false => rfl
            | true =>
              exfalso
              have := keyLt_trans y z x (hy_lt z hz2) hv
              rw [this] at hyx
              cases hyx
        · intro _; rfl
      · intro y' hy'
        cases hy'

end FractionalIndex

namespace FractionalIndex

/-- Characterization of the first operation on a sorted list: absent exactly
on the empty list, otherwise the minimum. -/
theorem mlaFirst_spec (l : List Str) (hs : SortedK l) :
    (mlaFirst l = none ↔ l = []) ∧
    (∀ y, mlaFirst l = some y → y ∈ l ∧ ∀ z ∈ l, keyLt z y = false) := by
  cases l with
  | nil => exact ⟨by simp [mlaFirst], by intro y h; cases h⟩
  | cons y ys =>
    obtain ⟨hy_lt, _⟩ := List.pairwise_cons.mp hs
    refine ⟨by simp [mlaFirst], ?_⟩
    intro y' hy'
    injection hy' with hy'
    subst hy'
    refine ⟨by simp, ?_⟩
    intro z hz
    rcases List.mem_cons.mp hz with rfl | hz2
    · exact keyLt_irrefl _
    · exact keyLt_asymm (hy_lt z hz2)

/-- Characterization of the last operation on a sorted list: absent exactly
on the empty list, otherwise the maximum. -/
theorem mlaLast_spec : ∀ l : List Str, SortedK l →
    (mlaLast l = none ↔ l = []) ∧
    (∀ y, mlaLast l = some y → y ∈ l ∧ ∀ z ∈ l, keyLt y z = false) := by
  intro l
  induction l with
  | nil => exact fun _ => ⟨by simp [mlaLast], by intro y h; cases h⟩
  | cons y ys ih =>
    intro hs
    obtain ⟨hy_lt, hs_tail⟩ := List.pairwise_cons.mp hs
    cases ys with
    | nil =>
      refine ⟨by simp [mlaLast], ?_⟩
      intro y' hy'
      simp [mlaLast] at hy'
      subst hy'
      exact ⟨by simp, by intro z hz; simp at hz; subst hz; exact keyLt_irrefl _⟩
    | cons w ws =>
      have hlast : mlaLast (y :: w :: ws) = mlaLast (w :: ws) := by
        simp [mlaLast]
      refine ⟨by simp [hlast, mlaLast], ?_⟩
      intro y' hy'
      rw [hlast] at hy'
      obtain ⟨hmem, hmax⟩ := (ih hs_tail).2 y' hy'
      refine ⟨by simp [hmem], ?_⟩
      intro z hz
      rcases List.mem_cons.mp hz with rfl | hz2
      · exact keyLt_asymm (hy_lt y' hmem)
      · exact hmax z hz2

/-- Adding to a sorted list grows its length by one. -/
theorem mlaAdd_length : ∀ (l : List Str) (x : Str),
    (mlaAdd l x).length = l.length + 1 := by
  intro l x
  induction l with
  | nil => rfl
  | cons y ys ih =>
    rw [mlaAdd]
    split
    · simp
    · simp [ih]

/-- Adding to a sorted list is a permutation of consing: exactly the new key
is added and nothing is removed or altered. -/
theorem mlaAdd_perm : ∀ (l : List Str) (x : Str), (mlaAdd l x).Perm (x :: l) := by
  intro l x
  induction l with
  | nil => exact List.Perm.refl _
  | cons y ys ih =>
    rw [mlaAdd]
    split
    · exact List.Perm.refl _
    · exact ((ih.cons y).trans (List.Perm.swap x y ys))

/-- Membership in the result of adding. -/
theorem mlaAdd_mem {l : List Str} {x z : Str} (hz : z ∈ mlaAdd l x) :
    z = x ∨ z ∈ l := by
  have := (mlaAdd_perm l x).mem_iff.mp hz
  simpa using this

/-- Adding a fresh key to a sorted list keeps it sorted. -/
theorem mlaAdd_sorted : ∀ (l : List Str) (x : Str), SortedK l → x ∉ l →
    SortedK (mlaAdd l x) := by
  intro l x
  induction l with
  | nil => intro _ _; simp [mlaAdd]
  | cons y ys ih =>
    intro hs hx
    obtain ⟨hy_lt, hs_tail⟩ := List.pairwise_cons.mp hs
    rw [mlaAdd]
    by_cases h : keyLt x y = true
    · rw [if_pos h]
      refine List.pairwise_cons.mpr ⟨?_, hs⟩
      intro z hz
      rcases List.mem_cons.mp hz with rfl | hz2
      · exact h
      · exact keyLt_trans x y z h (hy_lt z hz2)
    · rw [if_neg h]
      refine List.pairwise_cons.mpr ⟨?_, ?_⟩
      · intro z hz
        rcases mlaAdd_mem hz with rfl | hz2
        · refine keyLt_connex z y ?_ ?_
          · cases hv : keyLt z y with
            | false => rfl
            | true => exact absurd hv h
          · intro he
            exact hx (by rw [he]; simp)
        · exact hy_lt z hz2
      · exact ih hs_tail (fun hmem => hx (by simp [hmem]))

/-- The rightmost insertion point of a member of a sorted partition is just
past its position. -/
theorem bisectRight_partition : ∀ (p : List Str) (x : Str) (xs : List Str),
    SortedK (p ++ x :: xs) → bisectRight (p ++ x :: xs) x = p.length + 1 := by
  intro p
  induction p with
  | nil =>
    intro x xs hs
    obtain ⟨hx_lt, _⟩ := List.pairwise_cons.mp hs
    rw [List.nil_append, bisectRight, if_neg (by rw [keyLt_irrefl]; simp)]
    cases xs with
    | nil => rfl
    | cons w ws =>
      rw [bisectRight, if_pos (hx_lt w (by simp))]
      simp
  | cons q p' ih =>
    intro x xs hs
    obtain ⟨hq_lt, hs_tail⟩ := List.pairwise_cons.mp hs
    have hqx : keyLt q x = true := hq_lt x (by simp)
    rw [List.cons_append, bisectRight, if_neg (by rw [keyLt_asymm hqx]; simp)]
    rw [ih x xs hs_tail]
    simp [Nat.add_comm]

/-- On a sorted partition, the after operation at a member returns the head of
the remaining suffix. -/
theorem mlaAfter_partition (p : List Str) (x : Str) (xs : List Str)
    (hs : SortedK (p ++ x :: xs)) :
    mlaAfter (p ++ x :: xs) x = xs.head? := by
  rw [mlaAfter, bisectRight_partition p x xs hs]
  rw [List.getElem?_append_right (by simp)]
  simp [List.head?_eq_getElem?]

/-- Iteration visits exactly the remaining suffix: starting from the head of
the suffix of a sorted partition and repeatedly stepping with after yields the
suffix, for any fuel at least its length. -/
theorem iterFrom_suffix : ∀ (s p l : List Str), l = p ++ s → SortedK l →
    ∀ fuel, s.length ≤ fuel → iterFrom l s.head? fuel = s := by
  intro s
  induction s with
  | nil =>
    intro p l _ _ fuel _
    cases fuel <;> rfl
  | cons x xs ih =>
    intro p l hl hs fuel hfuel
    obtain ⟨f, rfl⟩ : ∃ f, fuel = f + 1 := by
      cases fuel with
      | zero => simp at hfuel
      | succ f => exact ⟨f, rfl⟩
    rw [List.head?_cons, iterFrom]
    have hafter : mlaAfter l x = xs.head? := by
      rw [hl]
      exact mlaAfter_partition p x xs (by rw [← hl]; exact hs)
    rw [hafter]
    have hxs := ih (p ++ [x]) l (by rw [hl]; simp) hs f
      (by simp at hfuel; omega)
    rw [hxs]

/-- Iterating the managed list indexer over a sorted list visits every item
exactly once, in order. -/
theorem mlaIter_eq_self (l : List Str) (hs : SortedK l) (fuel : Nat)
    (hfuel : l.length ≤ fuel) : mlaIter l fuel = l := by
  rw [mlaIter]
  have : mlaFirst l = l.head? := rfl
  rw [this]
  exact iterFrom_suffix l [] l rfl hs fuel hfuel

end FractionalIndex

namespace FractionalIndex

/-- C1: for every pair of bounds with the lower strictly below the upper (or
with one or both bounds absent), a key returned by generate_key_between is
strictly greater than a present lower bound and strictly less than a present
upper bound, in lexicographic string order.  Since Indexer.insert returns
exactly the result of generate_key_between on its mapped bounds, the same
holds of every successful insert. -/
theorem c1_order_invariant (oa ob : Option Str) (k : Str)
    (_hord : ∀ a0, oa = some a0 → ∀ b0, ob = some b0 → keyLt a0 b0 = true)
    (hgen : generateKeyBetween oa ob = .ok k) :
    (∀ a0, oa = some a0 → keyLt a0 k = true) ∧
    (∀ b0, ob = some b0 → keyLt k b0 = true) :=
  generate_ok_bounds oa ob k hgen

/-- Witness for C1 at the concrete bounds a0 and a1: generation succeeds with
the key a0V, which lies strictly between them. -/
theorem c1_order_invariant_witness :
    generateKeyBetween (some ['a', '0']) (some ['a', '1']) =
      .ok ['a', '0', 'V'] ∧
    keyLt ['a', '0'] ['a', '0', 'V'] = true ∧
    keyLt ['a', '0', 'V'] ['a', '1'] = true := by
  have h := c1_order_invariant (some ['a', '0']) (some ['a', '1'])
    ['a', '0', 'V']
    (by intro a0 ha b0 hb; cases ha; cases hb; rfl) rfl
  exact ⟨rfl, h.1 ['a', '0'] rfl, h.2 ['a', '1'] rfl⟩

/-- C2: Indexer.insert resolves its optional arguments exactly as the
four-case table: both absent uses last as the lower name (and an empty
collection leaves both absent, since last is then absent); only before given
derives the lower name with before; only after given derives the upper name
with after; both given are used as-is with no validation; in every case the
result is key generation applied to the mapped bounds. -/
theorem c2_insert_resolution {Name : Type} (acc : Accessor Name)
    (ntk : Option Name → Option Str) :
    (indexerInsert acc ntk none none =
      generateKeyBetween (ntk acc.last) (ntk none)) ∧
    (acc.last = none → indexerInsert acc ntk none none =
      generateKeyBetween (ntk none) (ntk none)) ∧
    (∀ b, indexerInsert acc ntk none (some b) =
      generateKeyBetween (ntk (acc.before b)) (ntk (some b))) ∧
    (∀ a, indexerInsert acc ntk (some a) none =
      generateKeyBetween (ntk (some a)) (ntk (acc.after a))) ∧
    (∀ a b, indexerInsert acc ntk (some a) (some b) =
      generateKeyBetween (ntk (some a)) (ntk (some b))) := by
  refine ⟨rfl, ?_, (fun b => rfl), (fun a => rfl), (fun a b => rfl)⟩
  intro h
  have heq : indexerInsert acc ntk none none =
      generateKeyBetween (ntk acc.last) (ntk none) := rfl
  rw [heq, h]

/-- Witness for C2 at the empty managed list accessor, where last is absent
and both bounds stay absent. -/
theorem c2_insert_resolution_witness :
    indexerInsert (mlaAccessor []) id none none =
      generateKeyBetween (id none) (id none) :=
  (c2_insert_resolution (mlaAccessor []) id).2.1 rfl

/-- C3: with both bounds present and the lower not strictly below the upper,
key generation fails with InvalidOrder and returns no key; when the lower is
strictly below the upper no InvalidOrder arises; and insert passes the result
of key generation, errors included, through unchanged. -/
theorem c3_invalid_order :
    (∀ as0 bs : Str, keyLt as0 bs = false →
      generateKeyBetween (some as0) (some bs) = .error .invalidOrder) ∧
    (∀ as0 bs : Str, keyLt as0 bs = true →
      generateKeyBetween (some as0) (some bs) ≠ .error .invalidOrder) ∧
    (generateKeyBetween (some ['b']) (some ['a']) = .error .invalidOrder) ∧
    (∀ (Name : Type) (acc : Accessor Name) (ntk : Option Name → Option Str)
      (a b : Name), indexerInsert acc ntk (some a) (some b) =
        generateKeyBetween (ntk (some a)) (ntk (some b))) := by
  refine ⟨?_, ?_, rfl, (fun _ _ _ a b => rfl)⟩
  · intro as0 bs h
    simp only [generateKeyBetween, h, Bool.not_false, if_true]
  · intro as0 bs h
    simp only [generateKeyBetween, h, Bool.not_true, Bool.false_eq_true,
      if_false]
    split
    · simp
    · split
      · simp
      · split
        · simp
        · split
          · simp
          · simp

/-- Witness for C3: between the strings b2 and a3, where the lower bound is
not below the upper bound, generation reports InvalidOrder. -/
theorem c3_invalid_order_witness :
    generateKeyBetween (some ['b', '2']) (some ['a', '3']) =
      .error .invalidOrder :=
  c3_invalid_order.1 ['b', '2'] ['a', '3'] rfl

/-- C4: on an empty collection an insert with no arguments succeeds and
returns the canonical starting key a0, whose first character is the middle
symbol of the 52-symbol integer-part head alphabet; the result is a pure
function of the (empty) state, hence identical on every such invocation. -/
theorem c4_empty_insert :
    mliInsert [] none none = .ok (integerZero, [integerZero]) ∧
    generateKeyBetween none none = .ok integerZero ∧
    integerZero = ['a', '0'] ∧
    integerZero.headD ' ' = headChars.getD (headChars.length / 2) ' ' :=
  ⟨rfl, rfl, rfl, rfl⟩

/-- C5: the claim that every read operation of every accessor is total fails
on the code: FileAccessor.after on a name whose key mapping is absent hands
Python None to bisect_right, which raises a TypeError whenever the key list
is nonempty.  Here the directory holds the single file ka0 (key a0 under the
mapping that strips a leading k and rejects other names), and after of the
ineligible name zzz raises instead of returning the absent value. -/
theorem c5_file_after_raises :
    fileAfter [['k', 'a', '0']]
      (fun n => match n with | 'k' :: r => some r | _ => none)
      ['z', 'z', 'z'] = .error .typeError ∧
    mlaAfterPy [['a', '0']] none = .error .typeError ∧
    (∀ (l : List Str) (x : Str), mlaAfterPy l (some x) = .ok (mlaAfter l x)) :=
  ⟨rfl, rfl, (fun _ _ => rfl)⟩

/-- C6 counterexample: on the in-memory accessor holding a0 and a2, the
supplied name a1 is not stored, yet the derived neighbouring bound is a2
rather than absent, and the insert result differs from the call without the
bound, so insert does not proceed as if the bound had never been given. -/
theorem c6_counterexample :
    mlaAfter [['a', '0'], ['a', '2']] ['a', '1'] = some ['a', '2'] ∧
    indexerInsert (mlaAccessor [['a', '0'], ['a', '2']]) id
      (some ['a', '1']) none = .ok ['a', '1', 'V'] ∧
    indexerInsert (mlaAccessor [['a', '0'], ['a', '2']]) id none none =
      .ok ['a', '3'] ∧
    (['a', '1', 'V'] : Str) ≠ ['a', '3'] :=
  ⟨rfl, rfl, rfl, (by decide)⟩

/-- C6 as amended: on the in-memory accessor, insert with one bound supplied
uses the supplied name itself as that bound and derives the other bound by
rank: the neighbour of the insertion position of the name, which is absent
exactly when no stored key lies on that side; no error is raised for string
names. -/
theorem c6_amended (l : List Str) (x : Str) (hs : SortedK l) :
    (indexerInsert (mlaAccessor l) id (some x) none =
      generateKeyBetween (some x) (mlaAfter l x)) ∧
    (indexerInsert (mlaAccessor l) id none (some x) =
      generateKeyBetween (mlaBefore l x) (some x)) ∧
    (mlaAfter l x = none ↔ ∀ z ∈ l, keyLt x z = false) ∧
    (mlaBefore l x = none ↔ ∀ z ∈ l, keyLt z x = false) :=
  ⟨rfl, rfl, (mlaAfter_spec l x hs).1, (mlaBefore_spec l x hs).1⟩

/-- Witness for the amended C6 at a concrete sorted list and unstored name. -/
theorem c6_amended_witness :
    indexerInsert (mlaAccessor [['a', '0'], ['a', '2']]) id
      (some ['a', '1']) none =
      generateKeyBetween (some ['a', '1'])
        (mlaAfter [['a', '0'], ['a', '2']] ['a', '1']) :=
  (c6_amended [['a', '0'], ['a', '2']] ['a', '1'] (by decide)).1

/-- C7 counterexample: with a mapping that returns the key a5 even for the
absent name, insert on an empty collection derives a concrete bound from the
absent resolved name: both resolved names are absent, yet generation is called
with present equal bounds and fails, instead of producing the key a0 that
absent bounds give. -/
theorem c7_counterexample :
    indexerInsert (mlaAccessor []) (fun _ => some ['a', '5']) none none =
      .error .invalidOrder ∧
    (mlaAccessor ([] : List Str)).last = none ∧
    generateKeyBetween none none = .ok ['a', '0'] :=
  ⟨rfl, rfl, rfl⟩

/-- C7 as amended: Indexer.insert applies the mapping function to the
resolved names even when they are absent; hence for every mapping that sends
the absent name to an absent key (as the identity default and all bundled
mappings do), an absent resolved name yields an absent key bound. -/
theorem c7_amended {Name : Type} (acc : Accessor Name)
    (ntk : Option Name → Option Str) (hn : ntk none = none) :
    (acc.last = none → indexerInsert acc ntk none none =
      generateKeyBetween none none) ∧
    (∀ b, acc.before b = none → indexerInsert acc ntk none (some b) =
      generateKeyBetween none (ntk (some b))) ∧
    (∀ a, acc.after a = none → indexerInsert acc ntk (some a) none =
      generateKeyBetween (ntk (some a)) none) ∧
    (indexerInsert acc ntk none none =
      generateKeyBetween (ntk acc.last) (ntk none)) := by
  refine ⟨?_, ?_, ?_, rfl⟩
  · intro h
    have heq : indexerInsert acc ntk none none =
        generateKeyBetween (ntk acc.last) (ntk none) := rfl
    rw [heq, h, hn]
  · intro b h
    have heq : indexerInsert acc ntk none (some b) =
        generateKeyBetween (ntk (acc.before b)) (ntk (some b)) := rfl
    rw [heq, h, hn]
  · intro a h
    have heq : indexerInsert acc ntk (some a) none =
        generateKeyBetween (ntk (some a)) (ntk (acc.after a)) := rfl
    rw [heq, h, hn]

/-- Witness for the amended C7 at the empty accessor with the identity
mapping: insert with no arguments reduces to generation with absent bounds. -/
theorem c7_amended_witness :
    indexerInsert (mlaAccessor []) id none none =
      generateKeyBetween none none :=
  (c7_amended (mlaAccessor []) id rfl).1 rfl

/-- C8 counterexample: on the in-memory accessor holding a0 and a2, the name
a5 is not stored, so under the claim it does not resolve to a position and
before should be absent; the code instead returns the nearest smaller stored
key a2. -/
theorem c8_counterexample :
    mlaBefore [['a', '0'], ['a', '2']] ['a', '5'] = some ['a', '2'] ∧
    (['a', '5'] : Str) ∉ [['a', '0'], ['a', '2']] :=
  ⟨rfl, (by decide)⟩

/-- C8 as amended: on a sorted in-memory collection, first and last return
the minimum and maximum (absent exactly when empty), before returns the
greatest stored key strictly below the probe name, stored or not (absent
exactly when no stored key is smaller, in particular when the probe is
first), and after symmetrically returns the least stored key strictly above
the probe. -/
theorem c8_amended (l : List Str) (hs : SortedK l) :
    ((mlaFirst l = none ↔ l = []) ∧
      (∀ y, mlaFirst l = some y → y ∈ l ∧ ∀ z ∈ l, keyLt z y = false)) ∧
    ((mlaLast l = none ↔ l = []) ∧
      (∀ y, mlaLast l = some y → y ∈ l ∧ ∀ z ∈ l, keyLt y z = false)) ∧
    (∀ x, (mlaBefore l x = none ↔ ∀ z ∈ l, keyLt z x = false) ∧
      (∀ y, mlaBefore l x = some y → y ∈ l ∧ keyLt y x = true ∧
        ∀ z ∈ l, keyLt z x = true → keyLt y z = false)) ∧
    (∀ x, (mlaAfter l x = none ↔ ∀ z ∈ l, keyLt x z = false) ∧
      (∀ y, mlaAfter l x = some y → y ∈ l ∧ keyLt x y = true ∧
        ∀ z ∈ l, keyLt x z = true → keyLt z y = false)) :=
  ⟨mlaFirst_spec l hs, mlaLast_spec l hs,
    (fun x => mlaBefore_spec l x hs), (fun x => mlaAfter_spec l x hs)⟩

/-- Witness for the amended C8 at a concrete sorted list. -/
theorem c8_amended_witness :
    mlaBefore [['a', '0'], ['a', '3']] ['a', '0'] = none ↔
      ∀ z ∈ [['a', '0'], ['a', '3']], keyLt z ['a', '0'] = false :=
  ((c8_amended [['a', '0'], ['a', '3']] (by decide)).2.2.1 ['a', '0']).1

/-- C9: iterating the Indexer over the in-memory accessor yields exactly the
sequence that starts from first and repeatedly applies after, stopping before
the first absent result; on a sorted unchanging list this visits every item
exactly once in key order, for any fuel bound of at least the list length;
the iteration is a pure function of the list, hence restartable with the same
result. -/
theorem c9_iteration (l : List Str) (hs : SortedK l) :
    ∀ fuel, l.length ≤ fuel → mlaIter l fuel = l :=
  fun fuel hf => mlaIter_eq_self l hs fuel hf

/-- Witness for C9 at a three-element sorted list. -/
theorem c9_iteration_witness :
    mlaIter [['a', '0'], ['a', '1'], ['a', '2']] 3 =
      [['a', '0'], ['a', '1'], ['a', '2']] :=
  c9_iteration [['a', '0'], ['a', '1'], ['a', '2']] (by decide) 3 (by decide)

/-- C10: every successful ManagedListIndexer.insert adds exactly the returned
key to the owned sorted list and removes or alters nothing: the new state is
the sorted insertion of the key, its length grows by one, it is a permutation
of consing the key, every old key is kept, and strict sortedness is preserved
whenever the new key is fresh; insert_at_start and insert_at_end are the same
insert at the first and last bounds. -/
theorem c10_managed_insert (l : List Str) (after before : Option Str)
    (k : Str) (l' : List Str) (hs : SortedK l)
    (hok : mliInsert l after before = .ok (k, l')) :
    l' = mlaAdd l k ∧ l'.length = l.length + 1 ∧ l'.Perm (k :: l) ∧
    (∀ x ∈ l, x ∈ l') ∧ (k ∉ l → SortedK l') ∧
    mliInsertAtStart l = mliInsert l none (mlaFirst l) ∧
    mliInsertAtEnd l = mliInsert l (mlaLast l) none := by
  unfold mliInsert at hok
  cases hgen : indexerInsert (mlaAccessor l) id after before with
  | error e => rw [hgen] at hok; cases hok
  | ok k0 =>
    rw [hgen] at hok
    injection hok with hpair
    have hk : k0 = k := congrArg Prod.fst hpair
    have hl' : mlaAdd l k0 = l' := congrArg Prod.snd hpair
    subst hk
    subst hl'
    refine ⟨rfl, mlaAdd_length l k0, mlaAdd_perm l k0, ?_, ?_, rfl, rfl⟩
    · intro x hx
      exact (mlaAdd_perm l k0).mem_iff.mpr (by simp [hx])
    · intro hfresh
      exact mlaAdd_sorted l k0 hs hfresh

/-- Witness for C10: inserting at the end of the singleton list a0 returns a1
and the state becomes the two keys in order. -/
theorem c10_managed_insert_witness :
    [['a', '0'], ['a', '1']] = mlaAdd [['a', '0']] ['a', '1'] ∧
    ([['a', '0'], ['a', '1']] : List Str).length = [['a', '0']].length + 1 := by
  have h := c10_managed_insert [['a', '0']] none none ['a', '1']
    [['a', '0'], ['a', '1']] (by decide) rfl
  exact ⟨h.1, h.2.1⟩

end FractionalIndex
